import Mathlib

/-!
Verification development for the tlbcore JSON codec (src/common/jsonio.h) and
newline-framed transport (src/common/jsonpipe.cc).

The codec's generic container support (vector, map, shared_ptr templates,
asJson/fromJson) is embedded from jsonio.h.  The primitive wrJson / rdJson
bodies (bool, integers, strings) live in a translation unit that is not part of
this source tree; those are modelled from the specification's dialect rules and
each such definition says so in its doc comment.

The transport's servicing routines (rxWork, txWork), the close helpers, the
consumer-facing drains, and the lock discipline of every public method are
embedded from jsonpipe.cc.  I/O results that the kernel cannot perform
(read(2), send(2)) are supplied to the embedded routines as an explicit list of
outcomes, one entry per syscall the routine performs.
-/

namespace Tlbcore

/-! ## Value shapes

`JType` is the closed universe of value shapes the codec claims range over:
booleans, integers (decimal text, modelled unbounded), strings,
`shared_ptr`-style optionals, `vector` sequences and ordered `map`s keyed by
strings.  `JType.Val` maps each shape to its Lean value type; an ordered map is
represented as its in-order key/value listing (the iteration order of
`std::map`). -/

inductive JType where
  | tBool : JType
  | tInt : JType
  | tStr : JType
  | tPtr (t : JType) : JType
  | tVec (t : JType) : JType
  | tMap (t : JType) : JType
deriving DecidableEq

def JType.Val : JType → Type
  | .tBool => Bool
  | .tInt => Int
  | .tStr => List Char
  | .tPtr t => Option t.Val
  | .tVec t => List t.Val
  | .tMap t => List (List Char × t.Val)

/-- Default-constructed value of each shape (`T tmp;` in the container
readers: `false`/`0`/empty for primitives, null pointer, empty containers). -/
def JType.dflt : (t : JType) → t.Val
  | .tBool => false
  | .tInt => (0 : Int)
  | .tStr => []
  | .tPtr _ => none
  | .tVec _ => []
  | .tMap _ => []

/-- Structural nesting depth of a shape, used to pick a sufficient recursion
budget for the whole-value reader. -/
def JType.depth : JType → Nat
  | .tBool => 1
  | .tInt => 1
  | .tStr => 1
  | .tPtr t => t.depth + 1
  | .tVec t => t.depth + 1
  | .tMap t => t.depth + 1

/-! ## Whitespace and literal matching (jsonio.h lines 64-81) -/

/-- The exact whitespace set of `jsonSkipSpace` (space, tab, LF, CR). -/
def isJsonSpace (c : Char) : Bool :=
  c = ' ' || c = '\t' || c = '\n' || c = '\r'

/-- `jsonSkipSpace`: advance past leading whitespace. -/
def jsonSkipSpace : List Char → List Char
  | [] => []
  | c :: s => if isJsonSpace c then jsonSkipSpace s else c :: s

/-- `jsonMatch`: if `pat` is a prefix of the input, return the remainder,
otherwise fail (the source leaves the cursor unmoved and returns false). -/
def jsonMatch : List Char → List Char → Option (List Char)
  | s, [] => some s
  | [], _ :: _ => none
  | c :: s, p :: ps => if c = p then jsonMatch s ps else none

/-! ## Primitive codec: integers

Modelled from the spec: "Integers (signed/unsigned, 32/64-bit) → decimal
ASCII, no leading zeros, minus sign for negative"; the reader consumes an
optional minus sign and a maximal nonempty run of decimal digits.  The
primitive bodies are not under src/ (only declared in jsonio.h). -/

def charToDigit (c : Char) : Nat := c.toNat - 48

/-- Decimal digits of a natural number, most significant first. -/
def natChars (n : Nat) : List Char :=
  if n = 0 then ['0'] else ((Nat.digits 10 n).map Nat.digitChar).reverse

/-- Modelled from the spec: integer encoding as decimal ASCII with a minus
sign for negatives. -/
def wrIntChars (n : Int) : List Char :=
  if n < 0 then '-' :: natChars n.natAbs else natChars n.natAbs

/-- Longest digit run at the head of the input, and the remainder. -/
def spanDigits : List Char → List Char × List Char
  | [] => ([], [])
  | c :: s =>
      if c.isDigit then (c :: (spanDigits s).1, (spanDigits s).2)
      else ([], c :: s)

/-- Value of a big-endian digit-character run. -/
def digitsVal (l : List Char) : Nat :=
  l.foldl (fun a c => 10 * a + charToDigit c) 0

/-- Modelled from the spec: integer decoding (skip whitespace, optional minus
sign, nonempty digit run; fail otherwise). -/
def rdIntM (s0 : List Char) : Option (Int × List Char) :=
  match jsonSkipSpace s0 with
  | [] => none
  | c :: s1 =>
      if c = '-' then
        if (spanDigits s1).1 = [] then none
        else some (-(digitsVal (spanDigits s1).1 : Int), (spanDigits s1).2)
      else
        if (spanDigits (c :: s1)).1 = [] then none
        else some ((digitsVal (spanDigits (c :: s1)).1 : Int), (spanDigits (c :: s1)).2)

/-! ## Primitive codec: strings

Modelled from the spec: "Text → JSON string literal with standard escaping
(`"`, `\`, control characters)" and the record invariant that no unescaped
newline appears inside an encoded value; other bytes pass through unchanged
(the documented malformed-UTF-8 passthrough). -/

def escChar (c : Char) : List Char :=
  if c = '"' then ['\\', '"']
  else if c = '\\' then ['\\', '\\']
  else if c = '\n' then ['\\', 'n']
  else if c = '\t' then ['\\', 't']
  else if c = '\r' then ['\\', 'r']
  else [c]

/-- Modelled from the spec: string encoding as a quoted, escaped literal. -/
def wrStrChars (s : List Char) : List Char :=
  '"' :: (s.map escChar).flatten ++ ['"']

def unescChar (c : Char) : Option Char :=
  if c = '"' then some '"'
  else if c = '\\' then some '\\'
  else if c = 'n' then some '\n'
  else if c = 't' then some '\t'
  else if c = 'r' then some '\r'
  else none

/-- Body of a string literal after the opening quote: chars up to the closing
quote, decoding backslash escapes, failing on truncation or a bad escape. -/
def rdStrBody : List Char → Option (List Char × List Char)
  | [] => none
  | c :: s =>
      if c = '"' then some ([], s)
      else if c = '\\' then
        match s with
        | [] => none
        | e :: s2 =>
            match unescChar e with
            | none => none
            | some d => (rdStrBody s2).map fun p => (d :: p.1, p.2)
      else (rdStrBody s).map fun p => (c :: p.1, p.2)
termination_by structural s => s

/-- Modelled from the spec: string decoding (skip whitespace, opening quote,
escaped body, closing quote). -/
def rdStrM (s0 : List Char) : Option (List Char × List Char) :=
  match jsonSkipSpace s0 with
  | [] => none
  | c :: s1 => if c = '"' then rdStrBody s1 else none

/-! ## Primitive codec: booleans

Modelled from the spec: "Boolean → `true`/`false` literal". -/

def wrBoolChars (b : Bool) : List Char :=
  if b then ['t', 'r', 'u', 'e'] else ['f', 'a', 'l', 's', 'e']

/-- Modelled from the spec: boolean decoding by literal match. -/
def rdBoolM (s0 : List Char) : Option (Bool × List Char) :=
  match jsonMatch (jsonSkipSpace s0) ['t', 'r', 'u', 'e'] with
  | some r => some (true, r)
  | none =>
      match jsonMatch (jsonSkipSpace s0) ['f', 'a', 'l', 's', 'e'] with
      | some r => some (false, r)
      | none => none

/-! ## Separator joining and ordered maps -/

/-- Comma-joined concatenation: the `sep` flag loop of the container writers
(jsonio.h lines 200-210, 300-312). -/
def sepJoin : List (List Char) → List Char
  | [] => []
  | [x] => x
  | x :: y :: ys => x ++ ',' :: sepJoin (y :: ys)

/-- Byte-lexicographic string order, the comparator of `std::map<string, T>`. -/
def strLtB : List Char → List Char → Bool
  | [], [] => false
  | [], _ :: _ => true
  | _ :: _, [] => false
  | a :: as, b :: bs => if a < b then true else if b < a then false else strLtB as bs

/-- `arr[ktmp] = vtmp` on a `std::map` represented as its ordered listing:
insert at the sorted position, overwriting an equal key. -/
def mapInsert {α : Type} (k : List Char) (v : α) :
    List (List Char × α) → List (List Char × α)
  | [] => [(k, v)]
  | (k', v') :: rest =>
      if strLtB k k' then (k, v) :: (k', v') :: rest
      else if k = k' then (k, v) :: rest
      else (k', v') :: mapInsert k v rest

/-- Lookup in the ordered listing (first binding of the key). -/
def mapLookup {α : Type} (k : List Char) : List (List Char × α) → Option α
  | [] => none
  | (k', v) :: rest => if k' = k then some v else mapLookup k rest

/-- Value of the last occurrence of key `k` in a raw key/value listing. -/
def lastBind {α : Type} (k : List Char) : List (List Char × α) → Option α
  | [] => none
  | p :: ps =>
      match lastBind k ps with
      | some v => some v
      | none => if p.1 = k then some p.2 else none

/-! ## Writers (jsonio.h)

The container cases are the header's templates: `wrJson(vector<T>)` writes
`[`, comma-separated elements, `]`; `wrJson(map<KT,VT>)` writes `{`,
comma-separated `"key":value` in iteration order, `}`;
`wrJson(shared_ptr<T>)` writes the pointee or the literal `null`
(lines 138-157, 192-230, 290-312). -/

def wrJson : (t : JType) → t.Val → List Char
  | .tBool => fun b => wrBoolChars b
  | .tInt => fun n => wrIntChars n
  | .tStr => fun s => wrStrChars s
  | .tPtr t => fun v =>
      match v with
      | none => ['n', 'u', 'l', 'l']
      | some x => wrJson t x
  | .tVec t => fun vs => '[' :: sepJoin (vs.map (wrJson t)) ++ [']']
  | .tMap t => fun ps =>
      '{' :: sepJoin (ps.map fun p => wrStrChars p.1 ++ ':' :: wrJson t p.2) ++ ['}']

/-- Size-estimation pass.  Container cases from the header: vector is
`2 + arr.size()` plus element sizes (line 194); map is `2` plus, per entry,
key size + value size + `2` (lines 292-297); shared_ptr is the pointee size or
`4` for `null` (lines 139-145).  Primitive sizes are modelled from the spec
("never under-estimates") as the exact emitted length. -/
def wrJsonSize : (t : JType) → t.Val → Nat
  | .tBool => fun b => (wrBoolChars b).length
  | .tInt => fun n => (wrIntChars n).length
  | .tStr => fun s => (wrStrChars s).length
  | .tPtr t => fun v =>
      match v with
      | none => 4
      | some x => wrJsonSize t x
  | .tVec t => fun vs => 2 + vs.length + (vs.map (wrJsonSize t)).sum
  | .tMap t => fun ps =>
      2 + (ps.map fun p => (wrStrChars p.1).length + wrJsonSize t p.2 + 2).sum

/-- JSON object text for an arbitrary (possibly duplicated, possibly unsorted)
key/value listing — the same layout the map writer emits, but over a raw
listing rather than a `std::map`.  Used to build inputs with duplicate keys. -/
def wrObj (t : JType) (ps : List (List Char × t.Val)) : List Char :=
  '{' :: sepJoin (ps.map fun p => wrStrChars p.1 ++ ':' :: wrJson t p.2) ++ ['}']

/-! ## Well-formed values -/

/-- Whether a value's encoding is literally `null` (a chain of null-able
wrappers ending in a null pointer). -/
def encodesNull : (t : JType) → t.Val → Bool
  | .tBool => fun _ => false
  | .tInt => fun _ => false
  | .tStr => fun _ => false
  | .tPtr t => fun v =>
      match v with
      | none => true
      | some x => encodesNull t x
  | .tVec _ => fun _ => false
  | .tMap _ => fun _ => false

/-- Strictly ascending keys — the representation invariant of `std::map`'s
ordered listing. -/
def pairsOrdered {α : Type} : List (List Char × α) → Bool
  | [] => true
  | [_] => true
  | p :: q :: rest => strLtB p.1 q.1 && pairsOrdered (q :: rest)

/-- Round-trippable values: map listings carry the `std::map` sortedness
invariant, and a present pointee is not itself a pure `null` chain.  The
pointer clause excludes values that ARE constructible in C++ — e.g. a
`shared_ptr<shared_ptr<T>>` holding a null inner pointer — but whose encoding
is the literal `null` (jsonio.h lines 148-157 write the pointee, so an inner
null emits `null`), which any null-aware read maps back to "absent", losing
the outer pointer: the round trip genuinely fails there (see the C1
counterexample below). -/
def valGood : (t : JType) → t.Val → Bool
  | .tBool => fun _ => true
  | .tInt => fun _ => true
  | .tStr => fun _ => true
  | .tPtr t => fun v =>
      match v with
      | none => true
      | some x => valGood t x && !encodesNull t x
  | .tVec t => fun vs => vs.all (valGood t)
  | .tMap t => fun ps => pairsOrdered ps && ps.all fun p => valGood t p.2

/-! ## Readers (jsonio.h)

The reader is fuelled: `rdJson fuel t prior s` consumes one unit of fuel per
`rdJson` entry and per container-loop iteration; the C++ recursion needs no
fuel, and `fromJson` below supplies a budget that is always sufficient.  Each
reader takes the prior contents of its destination (`&value` in C++); the
container readers clear the destination after seeing the opening bracket, and
every fresh element is default-constructed (`T tmp;`). -/

def maxList (base : Nat) : List Nat → Nat
  | [] => base
  | x :: xs => max x (maxList base xs)

/-- Fuel needed by `rdJson` to consume a value's encoding: one per reader
entry, plus a loop budget of (element count + 1) per container. -/
def cost : (t : JType) → t.Val → Nat
  | .tBool => fun _ => 1
  | .tInt => fun _ => 1
  | .tStr => fun _ => 1
  | .tPtr t => fun v =>
      match v with
      | none => 1
      | some x => 1 + cost t x
  | .tVec t => fun vs => 1 + maxList (vs.length + 1) (vs.map (cost t))
  | .tMap t => fun ps => 1 + maxList (ps.length + 1) (ps.map fun p => cost t p.2)

/-- Element loop of `rdJson(vector<T>)` (jsonio.h lines 238-254): skip space;
`]` ends the array; otherwise read an element with the supplied element
reader, `push_back` it, then a comma continues and `]` ends; anything else
fails.  End of input fails (the element reader sees the terminating NUL). -/
def rdVecLoop {α : Type} (elem : List Char → Option (α × List Char)) :
    Nat → List α → List Char → Option (List α × List Char)
  | 0, _, _ => none
  | n + 1, acc, s =>
      match jsonSkipSpace s with
      | [] => none
      | c :: r =>
          if c = ']' then some (acc, r)
          else
            match elem (c :: r) with
            | none => none
            | some (v, s2) =>
                match jsonSkipSpace s2 with
                | [] => none
                | c2 :: r2 =>
                    if c2 = ',' then rdVecLoop elem n (acc ++ [v]) r2
                    else if c2 = ']' then some (acc ++ [v], r2)
                    else none

/-- Member loop of `rdJson(map<KT,VT>)` (jsonio.h lines 320-343): skip space;
`}` ends the object; otherwise read a string key, `:`, a value (with leading
space skipped), store via `arr[ktmp] = vtmp`, then a comma continues and `}`
ends; anything else fails. -/
def rdMapLoop {α : Type} (elem : List Char → Option (α × List Char)) :
    Nat → List (List Char × α) → List Char → Option (List (List Char × α) × List Char)
  | 0, _, _ => none
  | n + 1, acc, s =>
      match jsonSkipSpace s with
      | [] => none
      | c :: r =>
          if c = '}' then some (acc, r)
          else
            match rdStrM (c :: r) with
            | none => none
            | some (k, s2) =>
                match jsonSkipSpace s2 with
                | [] => none
                | c2 :: r2 =>
                    if c2 = ':' then
                      match elem (jsonSkipSpace r2) with
                      | none => none
                      | some (v, s4) =>
                          match jsonSkipSpace s4 with
                          | [] => none
                          | c3 :: r3 =>
                              if c3 = ',' then rdMapLoop elem n (mapInsert k v acc) r3
                              else if c3 = '}' then some (mapInsert k v acc, r3)
                              else none
                    else none

/-- `rdJson` dispatched by shape.  `prior` is the destination's prior
contents; the vector reader checks `[` then clears it (jsonio.h line 237), the
map reader checks `{` then clears it (line 319), so `prior` is dropped exactly
there; primitive reads overwrite on success.  The `shared_ptr` read direction
is modelled from the spec: decoding `null` into an optional-capable target
yields "absent", a present value decodes as itself. -/
def rdJson : Nat → (t : JType) → t.Val → List Char → Option (t.Val × List Char)
  | 0 => fun _ _ _ => none
  | n + 1 => fun t _prior s =>
      match t with
      | .tBool => rdBoolM s
      | .tInt => rdIntM s
      | .tStr => rdStrM s
      | .tPtr t =>
          match jsonMatch (jsonSkipSpace s) ['n', 'u', 'l', 'l'] with
          | some r => some (none, r)
          | none => (rdJson n t t.dflt (jsonSkipSpace s)).map fun p => (some p.1, p.2)
      | .tVec t =>
          match jsonSkipSpace s with
          | [] => none
          | c :: r => if c = '[' then rdVecLoop (rdJson n t t.dflt) n [] r else none
      | .tMap t =>
          match jsonSkipSpace s with
          | [] => none
          | c :: r => if c = '{' then rdMapLoop (rdJson n t t.dflt) n [] r else none

/-! ## Whole-value entry points (jsonio.h lines 411-432) -/

/-- `asJson`: size pass, buffer write, truncate to the cursor.  The buffer
mechanics (`startWrite`/`endWrite`) produce exactly the bytes the write pass
emits, which is what this returns. -/
def asJson (t : JType) (v : t.Val) : List Char := wrJson t v

/-- `fromJson`: run the read pass over the buffer's full content.  Success
with the decoded value models `rdJson` returning true with the out-parameter
set; `none` models returning false.  The fuel budget, input length plus shape
depth plus one, always covers `cost` (proved below). -/
def fromJson (t : JType) (s : List Char) : Option t.Val :=
  (rdJson (s.length + t.depth + 1) t t.dflt s).map fun p => p.1

/-- Decidable equality of decoded values (needed to state `w == v`). -/
def valDecEq : (t : JType) → DecidableEq t.Val
  | .tBool => inferInstanceAs (DecidableEq Bool)
  | .tInt => inferInstanceAs (DecidableEq Int)
  | .tStr => inferInstanceAs (DecidableEq (List Char))
  | .tPtr t => letI := valDecEq t; inferInstanceAs (DecidableEq (Option _))
  | .tVec t => letI := valDecEq t; inferInstanceAs (DecidableEq (List _))
  | .tMap t => letI := valDecEq t; inferInstanceAs (DecidableEq (List (List Char × _)))

instance (t : JType) : DecidableEq t.Val := valDecEq t

/-- A continuation is a safe context for a greedy decimal parse when it does
not begin with a digit (it begins with a separator, a closing bracket, or is
the end of the buffer). -/
def restOk : List Char → Bool
  | [] => true
  | c :: _ => !c.isDigit

/-! ## Framed transport: receive path (jsonpipe.cc)

`rxWork` repeatedly issues `read(2)` and scans each chunk for newlines.  The
kernel cannot perform the syscalls, so an embedded run takes the list of their
outcomes: a data chunk, end of stream (`read` returned 0), would-block
(`EAGAIN`), or another read error.  The per-chunk newline scan (lines 69-90)
is `rxScan` below; `memchr` is `findNl`. -/

/-- Receive-direction shared state: the carry-over partial record `rxCur`, the
receive queue `rxQ` (front at the head), and whether `rxFd` is still set. -/
structure RxState where
  rxCur : List Char
  rxQ : List (List Char)
  rxOpen : Bool
deriving DecidableEq

/-- Scanning state inside one `rxWork` call: `rxCur`, `rxQ`, and the
`rxActivity` flag that triggers the end-of-call `notify_all`. -/
structure ScanSt where
  cur : List Char
  q : List (List Char)
  act : Bool
deriving DecidableEq

/-- `memchr(p, '\n', pend - p)`: the bytes before the first newline and the
bytes after it, or `none` when the chunk holds no newline. -/
def findNl : List Char → Option (List Char × List Char)
  | [] => none
  | c :: s =>
      if c = '\n' then some ([], s)
      else
        match findNl s with
        | none => none
        | some (b, a) => some (c :: b, a)

/-- The inner `p`/`pend` loop of `rxWork` (lines 70-90): without a newline the
whole remainder is appended to the carry-over; at a newline the assembled
record (carry-over plus the bytes before it, or just those bytes when the
carry-over is empty — the two source branches) is pushed onto the queue,
`rxActivity` is set, the carry-over clears, and scanning resumes after the
newline. -/
def rxScan (st : ScanSt) : List Char → ScanSt
  | chunk =>
      match h : findNl chunk with
      | none => ⟨st.cur ++ chunk, st.q, st.act⟩
      | some (b, a) =>
          if st.cur = [] then rxScan ⟨[], st.q ++ [b], true⟩ a
          else rxScan ⟨[], st.q ++ [st.cur ++ b], true⟩ a
termination_by chunk => chunk.length
decreasing_by
  all_goals
    (have key : ∀ (l b a : List Char), findNl l = some (b, a) → a.length < l.length := by
        intro l
        induction l with
        | nil => intro b a hba; simp [findNl] at hba
        | cons c s ih =>
            intro b a hba
            by_cases hc : c = '\n'
            · simp only [findNl, if_pos hc, Option.some.injEq, Prod.mk.injEq] at hba
              obtain ⟨h1, h2⟩ := hba
              subst h2
              simp only [List.length_cons]
              omega
            · simp only [findNl, if_neg hc] at hba
              cases hfs : findNl s with
              | none => rw [hfs] at hba; simp at hba
              | some p =>
                  rw [hfs] at hba
                  obtain ⟨b', a'⟩ := p
                  simp only [Option.some.injEq, Prod.mk.injEq] at hba
                  obtain ⟨h1, h2⟩ := hba
                  subst h2
                  have hlt := ih b' a' hfs
                  simp only [List.length_cons]
                  omega
     exact key _ _ _ h)

/-- `closeRx` (lines 135-144): a no-op when the fd is already released;
otherwise half-close or close the fd and clear it.  Both fd dispositions end
with the receive direction closed, which is what the state records. -/
def closeRxM (st : RxState) : RxState :=
  if st.rxOpen then { st with rxOpen := false } else st

/-- One read outcome seen by `rxWork`. -/
inductive RdRes where
  | chunk (data : List Char) : RdRes
  | eof : RdRes
  | again : RdRes
  | rerror : RdRes
deriving DecidableEq

/-- Result of an `rxWork` run: the final state, whether `rxQNonempty` was
signalled (`rxActivity` at the end of the call, lines 93-95), and whether the
unterminated-record diagnostic was printed (line 63). -/
structure RxOut where
  st : RxState
  notified : Bool
  diag : Bool
deriving DecidableEq

/-- The `while (1)` read loop of `rxWork` (lines 52-92): `EAGAIN` stops the
pass; another read error closes the receive direction and stops; a zero-length
read prints the diagnostic if a nonempty partial record is pending, discards
it, closes the receive direction and stops (no exception is thrown on this
path); a data chunk is scanned for newlines and the loop continues. -/
def rxWorkAux : RxState → Bool → Bool → List RdRes → RxOut
  | st, act, dg, [] => ⟨st, act, dg⟩
  | st, act, dg, .again :: _ => ⟨st, act, dg⟩
  | st, act, dg, .rerror :: _ => ⟨closeRxM st, act, dg⟩
  | st, act, dg, .eof :: _ =>
      ⟨closeRxM { st with rxCur := [] }, act, dg || !st.rxCur.isEmpty⟩
  | st, act, dg, .chunk d :: rs =>
      let sc := rxScan ⟨st.rxCur, st.rxQ, act⟩ d
      rxWorkAux { st with rxCur := sc.cur, rxQ := sc.q } sc.act dg rs

/-- `rxWork` entered with `rxActivity = false` and no diagnostic printed. -/
def rxWork (st : RxState) (reads : List RdRes) : RxOut :=
  rxWorkAux st false false reads

/-- `rxNonblock` (lines 176-183): under the lock, return the empty string when
the queue is empty, else pop and return the front record. -/
def rxNonblock (st : RxState) : List Char × RxState :=
  match st.rxQ with
  | [] => ([], st)
  | r :: rest => (r, { st with rxQ := rest })

/-! ## Framed transport: transmit path (jsonpipe.cc lines 98-133)

`txWork`'s `send(2)` outcomes are supplied as a list: a byte count, a
would-block indication, or another error.  The run returns the final state and
the unconsumed outcomes (each consumed entry is one `send` the pass actually
performed), or `none` for the impossible-overshoot `throw` (line 129). -/

/-- Transmit-direction shared state: current partially-sent record `txCur`
(newline already appended), queue `txQ`, the end-of-stream latch, and whether
`txFd` is still set. -/
structure TxState where
  txCur : List Char
  txQ : List (List Char)
  txEofFlag : Bool
  txOpen : Bool
deriving DecidableEq

/-- One send outcome seen by `txWork`. -/
inductive SendRes where
  | sent (n : Nat) : SendRes
  | eagain : SendRes
  | serror : SendRes
deriving DecidableEq

/-- `closeTx` (lines 146-155): no-op when already released, else half-close or
close and clear the fd. -/
def closeTxM (st : TxState) : TxState :=
  if st.txOpen then { st with txOpen := false } else st

/-- The `while (true)` loop of `txWork`: materialize the current record from
the queue head plus a newline when empty (lines 101-104); if still empty,
close on a pending EOF latch and stop (lines 105-110); otherwise send:
`EAGAIN` stops, another error closes transmit and stops, a short send erases
the sent prefix and loops, a full send clears the record and loops, and a
send reporting more bytes than were passed throws (modelled as `none`). -/
def txWork : TxState → List SendRes → Option (TxState × List SendRes)
  | st, sends =>
      let st1 :=
        match st.txCur, st.txQ with
        | [], r :: qrest => { st with txCur := r ++ ['\n'], txQ := qrest }
        | _, _ => st
      if st1.txCur = [] then
        some (if st1.txEofFlag then closeTxM st1 else st1, sends)
      else
        match sends with
        | [] => some (st1, [])
        | .eagain :: rest => some (st1, rest)
        | .serror :: rest => some (closeTxM st1, rest)
        | .sent n :: rest =>
            if n < st1.txCur.length then
              txWork { st1 with txCur := st1.txCur.drop n } rest
            else if n = st1.txCur.length then
              txWork { st1 with txCur := [] } rest
            else none

/-! ## Lock discipline of the public methods (jsonpipe.cc)

Each method of `jsonpipe` is abstracted to the ordered sequence of its
lock/unlock events and its touches of the shared mutable state (both queues,
both partial buffers, both fds, the `txEofFlag` latch).  A method's trace
lists every field the method's body (including the servicing helpers it
calls) can touch, in source order. -/

inductive Fld where
  | fTxFd | fRxFd | fTxQ | fRxQ | fTxCur | fRxCur | fTxEofFlag
deriving DecidableEq

inductive Ev where
  | lockEv : Ev
  | unlockEv : Ev
  | touch (f : Fld) : Ev
deriving DecidableEq

/-- Checks that every `touch` in a trace happens while the lock is held at
positive depth, starting from depth `d`. -/
def lockedOk : Nat → List Ev → Bool
  | _, [] => true
  | d, .lockEv :: es => lockedOk (d + 1) es
  | 0, .unlockEv :: _ => false
  | d + 1, .unlockEv :: es => lockedOk d es
  | 0, .touch _ :: _ => false
  | d + 1, .touch _ :: es => lockedOk (d + 1) es

/-- `preSelect` (lines 21-30): lock, inspect txFd/txCur/txQ/txEofFlag and rxFd. -/
def preSelectTrace : List Ev :=
  [.lockEv, .touch .fTxFd, .touch .fTxCur, .touch .fTxQ, .touch .fTxEofFlag,
   .touch .fRxFd, .unlockEv]

/-- State touched by `rxWork` (lines 48-96), which runs under the caller's lock. -/
def rxWorkTouches : List Ev :=
  [.touch .fRxFd, .touch .fRxCur, .touch .fRxQ]

/-- State touched by `txWork` (lines 98-133), which runs under the caller's lock. -/
def txWorkTouches : List Ev :=
  [.touch .fTxCur, .touch .fTxQ, .touch .fTxFd, .touch .fTxEofFlag]

/-- `postSelect` (lines 32-42): lock, check rxFd and service reads, check txFd
and service writes. -/
def postSelectTrace : List Ev :=
  [.lockEv, .touch .fRxFd] ++ rxWorkTouches ++ [.touch .fTxFd] ++ txWorkTouches
    ++ [.unlockEv]

/-- `setFds` (lines 158-174): lock, check both fds, assign both fds. -/
def setFdsTrace : List Ev :=
  [.lockEv, .touch .fTxFd, .touch .fRxFd, .touch .fTxFd, .touch .fRxFd, .unlockEv]

/-- `rxNonblock` (lines 176-183): lock, inspect and pop the receive queue. -/
def rxNonblockTrace : List Ev :=
  [.lockEv, .touch .fRxQ, .touch .fRxQ, .unlockEv]

/-- `rxBlock` (lines 185-197): lock, re-check queue and rxFd in the wait loop,
pop the front record. -/
def rxBlockTrace : List Ev :=
  [.lockEv, .touch .fRxQ, .touch .fRxFd, .touch .fRxQ, .unlockEv]

/-- `tx` (lines 201-208): lock, push onto the transmit queue, check its size,
and run the inline `txWork` flush. -/
def txTrace : List Ev :=
  [.lockEv, .touch .fTxQ, .touch .fTxQ] ++ txWorkTouches ++ [.unlockEv]

/-- `txEof` (lines 210-213): sets the `txEofFlag` latch with no lock
acquisition — the method body is the bare store. -/
def txEofTrace : List Ev :=
  [.touch .fTxEofFlag]

/-- Every public method of `jsonpipe` that touches shared mutable state. -/
def jsonpipeTraces : List (List Ev) :=
  [preSelectTrace, postSelectTrace, setFdsTrace, rxNonblockTrace, rxBlockTrace,
   txTrace, txEofTrace]

/-- The same methods with `txEof` excluded. -/
def jsonpipeTracesExceptTxEof : List (List Ev) :=
  [preSelectTrace, postSelectTrace, setFdsTrace, rxNonblockTrace, rxBlockTrace,
   txTrace]

/-! ## Codec lemmas: whitespace, literals, digits -/

theorem jsonSkipSpace_cons {c : Char} (h : isJsonSpace c = false) (s : List Char) :
    jsonSkipSpace (c :: s) = c :: s := by
  simp [jsonSkipSpace, h]

theorem jsonMatch_append (pat rest : List Char) :
    jsonMatch (pat ++ rest) pat = some rest := by
  induction pat with
  | nil => cases rest <;> rfl
  | cons p ps ih => simp [jsonMatch, ih]

theorem jsonMatch_ne {c p : Char} (hcp : c ≠ p) (s pat : List Char) :
    jsonMatch (c :: s) (p :: pat) = none := by
  simp [jsonMatch, hcp]

theorem digitChar_isDigit {d : Nat} (h : d < 10) : (Nat.digitChar d).isDigit = true := by
  interval_cases d <;> decide

theorem charToDigit_digitChar {d : Nat} (h : d < 10) :
    charToDigit (Nat.digitChar d) = d := by
  interval_cases d <;> decide

theorem isDigit_not_space {c : Char} (h : c.isDigit = true) : isJsonSpace c = false := by
  cases hsp : isJsonSpace c with
  | false => rfl
  | true =>
      exfalso
      simp only [isJsonSpace, Bool.or_eq_true, decide_eq_true_eq] at hsp
      rcases hsp with ((rfl | rfl) | rfl) | rfl <;> exact absurd h (by decide)

theorem isDigit_ne {c d : Char} (h : c.isDigit = true) (hd : d.isDigit = false) :
    c ≠ d := by
  intro heq
  subst heq
  rw [h] at hd
  exact Bool.noConfusion hd

theorem natChars_digits (n : Nat) : ∀ c ∈ natChars n, c.isDigit = true := by
  intro c hc
  unfold natChars at hc
  by_cases h0 : n = 0
  · rw [if_pos h0] at hc
    simp only [List.mem_singleton] at hc
    subst hc
    decide
  · rw [if_neg h0] at hc
    simp only [List.mem_reverse, List.mem_map] at hc
    obtain ⟨d, hd, rfl⟩ := hc
    exact digitChar_isDigit (Nat.digits_lt_base (by norm_num) hd)

theorem natChars_ne_nil (n : Nat) : natChars n ≠ [] := by
  unfold natChars
  by_cases h0 : n = 0
  · simp [h0]
  · rw [if_neg h0]
    simp [Nat.digits_ne_nil_iff_ne_zero, h0]

theorem foldl_digitChars (L : List Nat) (hL : ∀ d ∈ L, d < 10) :
    ∀ acc : Nat,
      ((L.map Nat.digitChar).reverse).foldl (fun a c => 10 * a + charToDigit c) acc
        = acc * 10 ^ L.length + Nat.ofDigits 10 L := by
  induction L with
  | nil => intro acc; simp [Nat.ofDigits_nil]
  | cons d L ih =>
      intro acc
      simp only [List.map_cons, List.reverse_cons, List.foldl_append, List.foldl_cons,
        List.foldl_nil]
      rw [ih (fun x hx => hL x (List.mem_cons_of_mem _ hx)) acc]
      rw [charToDigit_digitChar (hL d (List.mem_cons_self _ _))]
      rw [Nat.ofDigits_cons]
      simp only [List.length_cons]
      rw [pow_succ]
      ring

theorem digitsVal_natChars (n : Nat) : digitsVal (natChars n) = n := by
  unfold natChars digitsVal
  by_cases h0 : n = 0
  · rw [if_pos h0, h0]
    decide
  · rw [if_neg h0]
    rw [foldl_digitChars _ (fun d hd => Nat.digits_lt_base (by norm_num) hd) 0]
    simp [Nat.ofDigits_digits]

theorem spanDigits_append (ds rest : List Char) (hds : ∀ c ∈ ds, c.isDigit = true)
    (hrest : restOk rest = true) : spanDigits (ds ++ rest) = (ds, rest) := by
  induction ds with
  | nil =>
      simp only [List.nil_append]
      cases rest with
      | nil => rfl
      | cons c r =>
          simp only [restOk] at hrest
          have : c.isDigit = false := by
            cases h : c.isDigit with
            | false => rfl
            | true => rw [h] at hrest; exact Bool.noConfusion hrest
          simp [spanDigits, this]
  | cons c ds ih =>
      have hc := hds c (List.mem_cons_self _ _)
      simp [spanDigits, hc, ih (fun x hx => hds x (List.mem_cons_of_mem _ hx))]

theorem rdIntM_rt (n : Int) (rest : List Char) (hrest : restOk rest = true) :
    rdIntM (wrIntChars n ++ rest) = some (n, rest) := by
  unfold wrIntChars
  by_cases hneg : n < 0
  · rw [if_pos hneg]
    simp only [List.cons_append]
    unfold rdIntM
    rw [jsonSkipSpace_cons (by decide)]
    simp only []
    simp only [if_true]
    rw [spanDigits_append _ _ (natChars_digits _) hrest]
    simp [natChars_ne_nil, digitsVal_natChars]
    first
    | omega
    | (rw [Int.abs_eq_natAbs]; omega)
  · rw [if_neg hneg]
    obtain ⟨c, cs, hc⟩ : ∃ c cs, natChars n.natAbs = c :: cs := by
      cases h : natChars n.natAbs with
      | nil => exact absurd h (natChars_ne_nil _)
      | cons c cs => exact ⟨c, cs, rfl⟩
    have hcd : c.isDigit = true :=
      natChars_digits _ c (by rw [hc]; exact List.mem_cons_self _ _)
    rw [hc]
    simp only [List.cons_append]
    unfold rdIntM
    rw [jsonSkipSpace_cons (isDigit_not_space hcd)]
    simp only []
    rw [if_neg (isDigit_ne hcd (by decide : ('-').isDigit = false))]
    rw [← List.cons_append, ← hc]
    rw [spanDigits_append _ _ (natChars_digits _) hrest]
    simp [natChars_ne_nil, digitsVal_natChars]
    first
    | omega
    | (rw [Int.abs_eq_natAbs]; omega)

/-! ## Codec lemmas: strings and booleans -/

theorem rdStrBody_quote (s : List Char) : rdStrBody ('"' :: s) = some ([], s) := by
  rw [rdStrBody.eq_def]
  simp

theorem rdStrBody_esc {e d : Char} (hd : unescChar e = some d) (s : List Char) :
    rdStrBody ('\\' :: e :: s) = (rdStrBody s).map fun p => (d :: p.1, p.2) := by
  rw [rdStrBody.eq_def]
  simp [hd]

theorem rdStrBody_plain {c : Char} (h1 : c ≠ '"') (h2 : c ≠ '\\') (s : List Char) :
    rdStrBody (c :: s) = (rdStrBody s).map fun p => (c :: p.1, p.2) := by
  rw [rdStrBody.eq_def]
  simp [h1, h2]

theorem rdStrBody_rt (s rest : List Char) :
    rdStrBody ((s.map escChar).flatten ++ '"' :: rest) = some (s, rest) := by
  induction s with
  | nil =>
      simp only [List.map_nil, List.flatten_nil, List.nil_append]
      exact rdStrBody_quote rest
  | cons c cs ih =>
      simp only [List.map_cons, List.flatten_cons, List.append_assoc]
      by_cases h1 : c = '"'
      · subst h1
        rw [show escChar '"' = ['\\', '"'] from rfl]
        simp only [List.cons_append, List.nil_append]
        rw [rdStrBody_esc (show unescChar '\"' = some '\"' from rfl), ih]
        rfl
      · by_cases h2 : c = '\\'
        · subst h2
          rw [show escChar '\\' = ['\\', '\\'] from rfl]
          simp only [List.cons_append, List.nil_append]
          rw [rdStrBody_esc (show unescChar '\\' = some '\\' from rfl), ih]
          rfl
        · by_cases h3 : c = '\n'
          · subst h3
            rw [show escChar '\n' = ['\\', 'n'] from rfl]
            simp only [List.cons_append, List.nil_append]
            rw [rdStrBody_esc (show unescChar 'n' = some '\n' from rfl), ih]
            rfl
          · by_cases h4 : c = '\t'
            · subst h4
              rw [show escChar '\t' = ['\\', 't'] from rfl]
              simp only [List.cons_append, List.nil_append]
              rw [rdStrBody_esc (show unescChar 't' = some '\t' from rfl), ih]
              rfl
            · by_cases h5 : c = '\r'
              · subst h5
                rw [show escChar '\r' = ['\\', 'r'] from rfl]
                simp only [List.cons_append, List.nil_append]
                rw [rdStrBody_esc (show unescChar 'r' = some '\r' from rfl), ih]
                rfl
              · rw [show escChar c = [c] by simp [escChar, h1, h2, h3, h4, h5]]
                simp only [List.singleton_append]
                rw [rdStrBody_plain h1 h2, ih]
                rfl

theorem rdStrM_rt (s rest : List Char) :
    rdStrM (wrStrChars s ++ rest) = some (s, rest) := by
  unfold wrStrChars rdStrM
  simp only [List.cons_append, List.append_assoc, List.singleton_append]
  rw [jsonSkipSpace_cons (by decide)]
  simp only []
  simp only [if_true, List.nil_append]
  exact rdStrBody_rt s rest

theorem rdBoolM_rt (b : Bool) (rest : List Char) :
    rdBoolM (wrBoolChars b ++ rest) = some (b, rest) := by
  cases b
  · show rdBoolM (['f', 'a', 'l', 's', 'e'] ++ rest) = some (false, rest)
    unfold rdBoolM
    rw [show (['f', 'a', 'l', 's', 'e'] : List Char) ++ rest
          = 'f' :: 'a' :: 'l' :: 's' :: 'e' :: rest from rfl]
    rw [jsonSkipSpace_cons (by decide)]
    rw [jsonMatch_ne (by decide)]
    rw [show 'f' :: 'a' :: 'l' :: 's' :: 'e' :: rest
          = ['f', 'a', 'l', 's', 'e'] ++ rest from rfl]
    rw [jsonMatch_append]
  · show rdBoolM (['t', 'r', 'u', 'e'] ++ rest) = some (true, rest)
    unfold rdBoolM
    rw [show (['t', 'r', 'u', 'e'] : List Char) ++ rest
          = 't' :: 'r' :: 'u' :: 'e' :: rest from rfl]
    rw [jsonSkipSpace_cons (by decide)]
    rw [show 't' :: 'r' :: 'u' :: 'e' :: rest = ['t', 'r', 'u', 'e'] ++ rest from rfl]
    rw [jsonMatch_append]

/-! ## Codec lemmas: writer head characters -/

theorem wrJson_head (t : JType) :
    ∀ v : t.Val, ∃ c s, wrJson t v = c :: s ∧ isJsonSpace c = false ∧ c ≠ ']' ∧
      c ≠ '}' ∧ (encodesNull t v = false → c ≠ 'n') := by
  induction t with
  | tBool =>
      intro v
      cases v
      · exact ⟨'f', _, rfl, by decide, by decide, by decide, fun _ => by decide⟩
      · exact ⟨'t', _, rfl, by decide, by decide, by decide, fun _ => by decide⟩
  | tInt =>
      intro v
      change Int at v
      by_cases hneg : v < 0
      · refine ⟨'-', natChars v.natAbs, ?_, by decide, by decide, by decide, fun _ => by decide⟩
        show wrIntChars v = _
        rw [wrIntChars, if_pos hneg]
      · obtain ⟨c, cs, hc⟩ : ∃ c cs, natChars v.natAbs = c :: cs := by
          cases h : natChars v.natAbs with
          | nil => exact absurd h (natChars_ne_nil _)
          | cons c cs => exact ⟨c, cs, rfl⟩
        have hcd : c.isDigit = true :=
          natChars_digits _ c (by rw [hc]; exact List.mem_cons_self _ _)
        refine ⟨c, cs, ?_, isDigit_not_space hcd,
          isDigit_ne hcd (by decide), isDigit_ne hcd (by decide),
          fun _ => isDigit_ne hcd (by decide)⟩
        show wrIntChars v = _
        rw [wrIntChars, if_neg hneg, hc]
  | tStr =>
      intro v
      exact ⟨'"', _, rfl, by decide, by decide, by decide, fun _ => by decide⟩
  | tPtr t ih =>
      intro v
      cases v with
      | none =>
          refine ⟨'n', _, rfl, by decide, by decide, by decide, fun h => ?_⟩
          rw [show encodesNull (.tPtr t) (none : Option t.Val) = true from rfl] at h
          exact absurd h (by decide)
      | some x =>
          obtain ⟨c, s, hcs, hsp, h1, h2, hnul⟩ := ih x
          refine ⟨c, s, ?_, hsp, h1, h2, fun h => ?_⟩
          · rw [show wrJson (.tPtr t) (some x) = wrJson t x from rfl, hcs]
          · exact hnul
              (by rw [show encodesNull (.tPtr t) (some x) = encodesNull t x from rfl] at h
                  exact h)
  | tVec t _ =>
      intro v
      exact ⟨'[', _, rfl, by decide, by decide, by decide, fun _ => by decide⟩
  | tMap t _ =>
      intro v
      exact ⟨'{', _, rfl, by decide, by decide, by decide, fun _ => by decide⟩

theorem jsonSkipSpace_wrJson (t : JType) (v : t.Val) (rest : List Char) :
    jsonSkipSpace (wrJson t v ++ rest) = wrJson t v ++ rest := by
  obtain ⟨c, s, hcs, hsp, -, -, -⟩ := wrJson_head t v
  rw [hcs, List.cons_append, jsonSkipSpace_cons hsp]

/-! ## Ordered-map lemmas -/

theorem bool_ne_true {b : Bool} (h : b = false) : ¬b = true := by
  intro hh
  rw [h] at hh
  exact Bool.noConfusion hh

theorem strLtB_irrefl (a : List Char) : strLtB a a = false := by
  induction a with
  | nil => rfl
  | cons c as ih =>
      rw [strLtB, if_neg (lt_irrefl c), if_neg (lt_irrefl c)]
      exact ih

theorem strLtB_ne {a b : List Char} (h : strLtB a b = true) : a ≠ b := by
  intro heq
  subst heq
  rw [strLtB_irrefl] at h
  exact Bool.noConfusion h

theorem strLtB_asymm : ∀ {a b : List Char}, strLtB a b = true → strLtB b a = false := by
  intro a
  induction a with
  | nil =>
      intro b h
      cases b with
      | nil => exact Bool.noConfusion h
      | cons c bs => rfl
  | cons c as ih =>
      intro b h
      cases b with
      | nil => exact Bool.noConfusion h
      | cons d bs =>
          rw [strLtB] at h
          rcases lt_trichotomy c d with hlt | heq | hgt
          · rw [strLtB, if_neg (asymm hlt), if_pos hlt]
          · subst heq
            rw [if_neg (lt_irrefl c), if_neg (lt_irrefl c)] at h
            rw [strLtB, if_neg (lt_irrefl c), if_neg (lt_irrefl c)]
            exact ih h
          · rw [if_neg (asymm hgt), if_pos hgt] at h
            exact Bool.noConfusion h

theorem strLtB_trans : ∀ {a b c : List Char},
    strLtB a b = true → strLtB b c = true → strLtB a c = true := by
  intro a
  induction a with
  | nil =>
      intro b c h1 h2
      cases b with
      | nil => exact Bool.noConfusion h1
      | cons y bs =>
          cases c with
          | nil => exact Bool.noConfusion h2
          | cons z cs => rfl
  | cons x as ih =>
      intro b c h1 h2
      cases b with
      | nil => exact Bool.noConfusion h1
      | cons y bs =>
          cases c with
          | nil => exact Bool.noConfusion h2
          | cons z cs =>
              rw [strLtB] at h1 h2 ⊢
              rcases lt_trichotomy x y with hxy | hxy | hxy
              · rcases lt_trichotomy y z with hyz | hyz | hyz
                · rw [if_pos (lt_trans hxy hyz)]
                · subst hyz; rw [if_pos hxy]
                · rw [if_neg (asymm hyz), if_pos hyz] at h2
                  exact Bool.noConfusion h2
              · subst hxy
                rw [if_neg (lt_irrefl x), if_neg (lt_irrefl x)] at h1
                rcases lt_trichotomy x z with hyz | hyz | hyz
                · rw [if_pos hyz]
                · subst hyz
                  rw [if_neg (lt_irrefl x), if_neg (lt_irrefl x)] at h2 ⊢
                  exact ih h1 h2
                · rw [if_neg (asymm hyz), if_pos hyz] at h2
                  exact Bool.noConfusion h2
              · rw [if_neg (asymm hxy), if_pos hxy] at h1
                exact Bool.noConfusion h1

theorem mapInsert_append {α : Type} (k : List Char) (v : α) :
    ∀ m : List (List Char × α), (∀ p ∈ m, strLtB p.1 k = true) →
      mapInsert k v m = m ++ [(k, v)] := by
  intro m
  induction m with
  | nil => intro _; rfl
  | cons p ps ih =>
      intro h
      obtain ⟨k', v'⟩ := p
      have hp : strLtB k' k = true := h (k', v') (List.mem_cons_self _ _)
      rw [mapInsert]
      rw [if_neg (bool_ne_true (strLtB_asymm hp))]
      rw [if_neg (fun he => strLtB_ne hp he.symm)]
      rw [ih (fun q hq => h q (List.mem_cons_of_mem _ hq))]
      rfl

theorem mapLookup_insert_self {α : Type} (k : List Char) (v : α) :
    ∀ m, mapLookup k (mapInsert k v m) = some v := by
  intro m
  induction m with
  | nil => simp [mapInsert, mapLookup]
  | cons p ps ih =>
      obtain ⟨k', v'⟩ := p
      by_cases h1 : strLtB k k' = true
      · rw [mapInsert, if_pos h1, mapLookup, if_pos rfl]
      · by_cases h2 : k = k'
        · rw [mapInsert, if_neg h1]
          rw [if_pos h2, mapLookup, if_pos rfl]
        · rw [mapInsert, if_neg h1]
          rw [if_neg h2, mapLookup, if_neg (fun he => h2 he.symm)]
          exact ih
      -- the Bool-coercion of the first condition is `strLtB k k' = true`
      -- so `h1 : ¬strLtB k k' = true` must become `strLtB k k' = false`

theorem mapLookup_insert_ne {α : Type} {k k' : List Char} (hne : k' ≠ k) (v : α) :
    ∀ m, mapLookup k (mapInsert k' v m) = mapLookup k m := by
  intro m
  induction m with
  | nil => simp [mapInsert, mapLookup, hne]
  | cons p ps ih =>
      obtain ⟨k0, v0⟩ := p
      by_cases h1 : strLtB k' k0 = true
      · rw [mapInsert, if_pos h1, mapLookup, if_neg hne]
      · by_cases h2 : k' = k0
        · subst h2
          rw [mapInsert, if_neg h1]
          rw [if_pos rfl, mapLookup, if_neg hne, mapLookup, if_neg hne]
        · rw [mapInsert, if_neg h1, if_neg h2]
          rw [mapLookup, mapLookup]
          by_cases h3 : k0 = k
          · rw [if_pos h3, if_pos h3]
          · rw [if_neg h3, if_neg h3]
            exact ih

/-! ## maxList and sepJoin bounds -/

theorem le_maxList_base (base : Nat) (l : List Nat) : base ≤ maxList base l := by
  induction l with
  | nil => exact le_refl _
  | cons x xs ih => exact le_trans ih (le_max_right _ _)

theorem le_maxList_mem {x : Nat} {l : List Nat} (hx : x ∈ l) (base : Nat) :
    x ≤ maxList base l := by
  induction l with
  | nil => cases hx
  | cons y ys ih =>
      rcases List.mem_cons.mp hx with rfl | hmem
      · exact le_max_left _ _
      · exact le_trans (ih hmem) (le_max_right _ _)

theorem maxList_le {base m : Nat} {l : List Nat} (hb : base ≤ m)
    (hl : ∀ x ∈ l, x ≤ m) : maxList base l ≤ m := by
  induction l with
  | nil => exact hb
  | cons x xs ih =>
      exact max_le (hl x (List.mem_cons_self _ _))
        (ih fun y hy => hl y (List.mem_cons_of_mem _ hy))

theorem sepJoin_length_le (ls : List (List Char)) :
    (sepJoin ls).length ≤ (ls.map List.length).sum + ls.length := by
  induction ls with
  | nil => simp [sepJoin]
  | cons x ls ih =>
      cases ls with
      | nil => simp [sepJoin]
      | cons y ys =>
          rw [sepJoin]
          simp only [List.length_append, List.length_cons, List.map_cons, List.sum_cons]
          simp only [List.map_cons, List.sum_cons, List.length_cons] at ih
          omega

theorem length_le_sepJoin (ls : List (List Char)) (h : ∀ x ∈ ls, x ≠ []) :
    ls.length ≤ (sepJoin ls).length + 1 := by
  induction ls with
  | nil => simp
  | cons x ls ih =>
      cases ls with
      | nil =>
          simp [sepJoin]
      | cons y ys =>
          rw [sepJoin]
          have hx : x ≠ [] := h x (List.mem_cons_self _ _)
          have hxlen : 1 ≤ x.length := by
            cases x with
            | nil => exact absurd rfl hx
            | cons c cs => simp
          have := ih fun z hz => h z (List.mem_cons_of_mem _ hz)
          simp only [List.length_append, List.length_cons] at *
          omega

theorem mem_length_le_sepJoin {x : List Char} :
    ∀ {ls : List (List Char)}, x ∈ ls → x.length ≤ (sepJoin ls).length := by
  intro ls
  induction ls with
  | nil => intro hx; cases hx
  | cons y ys ih =>
      intro hx
      rcases List.mem_cons.mp hx with rfl | hmem
      · cases ys with
        | nil => exact le_refl _
        | cons z zs => rw [sepJoin]; simp
      · cases ys with
        | nil => cases hmem
        | cons z zs =>
            rw [sepJoin]
            have := ih hmem
            simp only [List.length_append, List.length_cons] at *
            omega

/-! ## Sorted listings and fold of insertions -/

theorem pairsOrdered_tail {α : Type} {q : List Char × α} {l : List (List Char × α)}
    (h : pairsOrdered (q :: l) = true) : pairsOrdered l = true := by
  cases l with
  | nil => rfl
  | cons r l' =>
      rw [pairsOrdered] at h
      simp only [Bool.and_eq_true] at h
      exact h.2

theorem pairsOrdered_head_lt {α : Type} :
    ∀ {l : List (List Char × α)} {q : List Char × α},
      pairsOrdered (q :: l) = true → ∀ p ∈ l, strLtB q.1 p.1 = true := by
  intro l
  induction l with
  | nil => intro q _ p hp; cases hp
  | cons r l' ih =>
      intro q h p hp
      rw [pairsOrdered] at h
      simp only [Bool.and_eq_true] at h
      rcases List.mem_cons.mp hp with rfl | hmem
      · exact h.1
      · exact strLtB_trans h.1 (ih h.2 p hmem)

theorem pairsOrdered_append_lt {α : Type} :
    ∀ (acc : List (List Char × α)) (q : List Char × α) (ps : List (List Char × α)),
      pairsOrdered (acc ++ q :: ps) = true → ∀ p ∈ acc, strLtB p.1 q.1 = true := by
  intro acc
  induction acc with
  | nil => intro q ps _ p hp; cases hp
  | cons r acc' ih =>
      intro q ps h p hp
      rcases List.mem_cons.mp hp with rfl | hmem
      · exact pairsOrdered_head_lt h q (by simp)
      · exact ih q ps (pairsOrdered_tail h) p hmem

theorem foldl_mapInsert_sorted {α : Type} :
    ∀ (ps acc : List (List Char × α)), pairsOrdered (acc ++ ps) = true →
      ps.foldl (fun m p => mapInsert p.1 p.2 m) acc = acc ++ ps := by
  intro ps
  induction ps with
  | nil => intro acc _; simp
  | cons p ps' ih =>
      intro acc h
      simp only [List.foldl_cons]
      rw [mapInsert_append p.1 p.2 acc
        (fun q hq => pairsOrdered_append_lt acc p ps' h q hq)]
      have h' : pairsOrdered ((acc ++ [p]) ++ ps') = true := by
        simpa [List.append_assoc] using h
      rw [ih (acc ++ [p]) h']
      simp

/-! ## Container loop round trips -/

theorem rdVecLoop_entry {t : JType} (elem : List Char → Option (t.Val × List Char))
    (m : Nat) (acc : List t.Val) (v : t.Val)
    (hv : ∀ r, restOk r = true → elem (wrJson t v ++ r) = some (v, r))
    (d : Char) (r2 : List Char) (hdsp : isJsonSpace d = false) (hdd : d.isDigit = false) :
    rdVecLoop elem (m + 1) acc (wrJson t v ++ d :: r2)
      = if d = ',' then rdVecLoop elem m (acc ++ [v]) r2
        else if d = ']' then some (acc ++ [v], r2)
        else none := by
  obtain ⟨c, s, hcs, hsp, hbr1, hbr2, -⟩ := wrJson_head t v
  simp only [rdVecLoop]
  rw [jsonSkipSpace_wrJson]
  rw [hcs, List.cons_append]
  simp only []
  rw [if_neg hbr1]
  rw [← List.cons_append, ← hcs]
  rw [hv (d :: r2) (by simp [restOk, hdd])]
  simp only []
  rw [jsonSkipSpace_cons hdsp]

theorem rdVecLoop_rt {t : JType} (elem : List Char → Option (t.Val × List Char)) :
    ∀ (vs : List t.Val),
      (∀ v ∈ vs, ∀ r : List Char, restOk r = true →
          elem (wrJson t v ++ r) = some (v, r)) →
      ∀ (acc : List t.Val) (n : Nat) (rest : List Char), vs.length + 1 ≤ n →
        rdVecLoop elem n acc (sepJoin (vs.map (wrJson t)) ++ ']' :: rest)
          = some (acc ++ vs, rest) := by
  intro vs
  induction vs with
  | nil =>
      intro _ acc n rest hn
      obtain ⟨m, rfl⟩ : ∃ m, n = m + 1 := ⟨n - 1, by omega⟩
      simp only [List.map_nil]
      rw [show sepJoin [] = ([] : List Char) from rfl]
      simp only [List.nil_append]
      simp only [rdVecLoop]
      rw [jsonSkipSpace_cons (by decide)]
      simp only []
      simp only [if_true, List.append_nil]
  | cons v vs ih =>
      intro helem acc n rest hn
      obtain ⟨m, rfl⟩ : ∃ m, n = m + 1 := ⟨n - 1, by omega⟩
      have hv := helem v (List.mem_cons_self _ _)
      have helem' : ∀ w ∈ vs, ∀ r, restOk r = true →
          elem (wrJson t w ++ r) = some (w, r) :=
        fun w hw => helem w (List.mem_cons_of_mem _ hw)
      cases vs with
      | nil =>
          simp only [List.map_cons, List.map_nil]
          rw [show sepJoin [wrJson t v] = wrJson t v from rfl]
          rw [rdVecLoop_entry elem m acc v hv ']' rest (by decide) (by decide)]
          rw [if_neg (by decide : ¬(']' : Char) = ',')]
          rw [if_pos rfl]
      | cons w ws =>
          simp only [List.map_cons]
          rw [show sepJoin (wrJson t v :: wrJson t w :: ws.map (wrJson t))
                = wrJson t v ++ ',' :: sepJoin (wrJson t w :: ws.map (wrJson t))
              from rfl]
          simp only [List.append_assoc, List.cons_append]
          rw [rdVecLoop_entry elem m acc v hv ','
              (sepJoin (wrJson t w :: ws.map (wrJson t)) ++ ']' :: rest)
              (by decide) (by decide)]
          rw [if_pos rfl]
          have hn' : (w :: ws).length + 1 ≤ m := by
            simp only [List.length_cons] at hn ⊢
            omega
          have := ih helem' (acc ++ [v]) m rest hn'
          simp only [List.map_cons] at this
          rw [this]
          simp

theorem rdMapLoop_entry {t : JType} (elem : List Char → Option (t.Val × List Char))
    (m : Nat) (acc : List (List Char × t.Val)) (k : List Char) (v : t.Val)
    (hv : ∀ r, restOk r = true → elem (wrJson t v ++ r) = some (v, r))
    (d : Char) (r2 : List Char) (hdsp : isJsonSpace d = false) (hdd : d.isDigit = false) :
    rdMapLoop elem (m + 1) acc (wrStrChars k ++ ':' :: (wrJson t v ++ d :: r2))
      = if d = ',' then rdMapLoop elem m (mapInsert k v acc) r2
        else if d = '}' then some (mapInsert k v acc, r2)
        else none := by
  simp only [rdMapLoop]
  rw [show wrStrChars k ++ ':' :: (wrJson t v ++ d :: r2)
        = '"' :: ((k.map escChar).flatten ++ ['"'] ++ ':' :: (wrJson t v ++ d :: r2))
      from by rw [wrStrChars]; simp]
  rw [jsonSkipSpace_cons (by decide)]
  simp only []
  rw [if_neg (by decide : ¬('"' : Char) = '}')]
  rw [show ('"' : Char) :: ((k.map escChar).flatten ++ ['"'] ++ ':' :: (wrJson t v ++ d :: r2))
        = wrStrChars k ++ ':' :: (wrJson t v ++ d :: r2)
      from by rw [wrStrChars]; simp]
  rw [rdStrM_rt]
  simp only []
  rw [jsonSkipSpace_cons (by decide)]
  simp only []
  simp only [if_true]
  rw [jsonSkipSpace_wrJson]
  rw [hv (d :: r2) (by simp [restOk, hdd])]
  simp only []
  rw [jsonSkipSpace_cons hdsp]

theorem rdMapLoop_rt {t : JType} (elem : List Char → Option (t.Val × List Char)) :
    ∀ (ps : List (List Char × t.Val)),
      (∀ p ∈ ps, ∀ r : List Char, restOk r = true →
          elem (wrJson t p.2 ++ r) = some (p.2, r)) →
      ∀ (acc : List (List Char × t.Val)) (n : Nat) (rest : List Char), ps.length + 1 ≤ n →
        rdMapLoop elem n acc
            (sepJoin (ps.map fun p => wrStrChars p.1 ++ ':' :: wrJson t p.2) ++ '}' :: rest)
          = some (ps.foldl (fun m p => mapInsert p.1 p.2 m) acc, rest) := by
  intro ps
  induction ps with
  | nil =>
      intro _ acc n rest hn
      obtain ⟨m, rfl⟩ : ∃ m, n = m + 1 := ⟨n - 1, by omega⟩
      simp only [List.map_nil]
      rw [show sepJoin [] = ([] : List Char) from rfl]
      simp only [List.nil_append, List.foldl_nil]
      simp only [rdMapLoop]
      rw [jsonSkipSpace_cons (by decide)]
      simp only []
      simp only [if_true]
  | cons p ps ih =>
      intro helem acc n rest hn
      obtain ⟨m, rfl⟩ : ∃ m, n = m + 1 := ⟨n - 1, by omega⟩
      have hv := helem p (List.mem_cons_self _ _)
      have helem' : ∀ q ∈ ps, ∀ r, restOk r = true →
          elem (wrJson t q.2 ++ r) = some (q.2, r) :=
        fun q hq => helem q (List.mem_cons_of_mem _ hq)
      cases ps with
      | nil =>
          simp only [List.map_cons, List.map_nil]
          rw [show sepJoin [wrStrChars p.1 ++ ':' :: wrJson t p.2]
                = wrStrChars p.1 ++ ':' :: wrJson t p.2 from rfl]
          simp only [List.append_assoc, List.cons_append]
          rw [rdMapLoop_entry elem m acc p.1 p.2 hv '}' rest (by decide) (by decide)]
          rw [if_neg (by decide : ¬('}' : Char) = ',')]
          rw [if_pos rfl]
          simp
      | cons q qs =>
          simp only [List.map_cons]
          rw [show sepJoin ((wrStrChars p.1 ++ ':' :: wrJson t p.2)
                :: (wrStrChars q.1 ++ ':' :: wrJson t q.2)
                :: (qs.map fun r => wrStrChars r.1 ++ ':' :: wrJson t r.2))
              = (wrStrChars p.1 ++ ':' :: wrJson t p.2) ++ ',' :: sepJoin
                  ((wrStrChars q.1 ++ ':' :: wrJson t q.2)
                    :: (qs.map fun r => wrStrChars r.1 ++ ':' :: wrJson t r.2))
              from rfl]
          simp only [List.append_assoc, List.cons_append]
          rw [rdMapLoop_entry elem m acc p.1 p.2 hv ','
              (sepJoin ((wrStrChars q.1 ++ ':' :: wrJson t q.2)
                  :: (qs.map fun r => wrStrChars r.1 ++ ':' :: wrJson t r.2))
                ++ '}' :: rest)
              (by decide) (by decide)]
          rw [if_pos rfl]
          have hn' : (q :: qs).length + 1 ≤ m := by
            simp only [List.length_cons] at hn ⊢
            omega
          have := ih helem' (mapInsert p.1 p.2 acc) m rest hn'
          simp only [List.map_cons] at this
          rw [this]
          simp only [List.foldl_cons]

/-! ## Whole-value round trip -/


theorem rdJson_wrJson (t : JType) :
    ∀ (v prior : t.Val) (n : Nat) (rest : List Char),
      cost t v ≤ n → valGood t v = true → restOk rest = true →
      rdJson n t prior (wrJson t v ++ rest) = some (v, rest) := by
  induction t with
  | tBool =>
      intro v prior n rest hc hg hr
      obtain ⟨m, rfl⟩ : ∃ m, n = m + 1 := ⟨n - 1, by
        have : cost .tBool v = 1 := rfl
        omega⟩
      exact rdBoolM_rt v rest
  | tInt =>
      intro v prior n rest hc hg hr
      obtain ⟨m, rfl⟩ : ∃ m, n = m + 1 := ⟨n - 1, by
        have : cost .tInt v = 1 := rfl
        omega⟩
      exact rdIntM_rt v rest hr
  | tStr =>
      intro v prior n rest hc hg hr
      obtain ⟨m, rfl⟩ : ∃ m, n = m + 1 := ⟨n - 1, by
        have : cost .tStr v = 1 := rfl
        omega⟩
      exact rdStrM_rt v rest
  | tPtr t ih =>
      intro v prior n rest hc hg hr
      obtain ⟨m, rfl⟩ : ∃ m, n = m + 1 := ⟨n - 1, by
        have h1 : 1 ≤ cost (.tPtr t) v := by
          cases v with
          | none => exact le_refl _
          | some x => exact Nat.le_add_right _ _
        omega⟩
      cases v with
      | none =>
          simp only [rdJson]
          rw [show wrJson (.tPtr t) (none : Option t.Val) = ['n', 'u', 'l', 'l'] from rfl]
          rw [show (['n', 'u', 'l', 'l'] : List Char) ++ rest
                = 'n' :: 'u' :: 'l' :: 'l' :: rest from rfl]
          rw [jsonSkipSpace_cons (by decide)]
          rw [show ('n' : Char) :: 'u' :: 'l' :: 'l' :: rest
                = ['n', 'u', 'l', 'l'] ++ rest from rfl]
          rw [jsonMatch_append]
      | some x =>
          have hgx : valGood t x = true ∧ encodesNull t x = false := by
            rw [show valGood (.tPtr t) (some x)
                  = (valGood t x && !encodesNull t x) from rfl] at hg
            simp only [Bool.and_eq_true] at hg
            obtain ⟨h1, h2⟩ := hg
            exact ⟨h1, by
              cases h : encodesNull t x with
              | false => rfl
              | true => rw [h] at h2; exact Bool.noConfusion h2⟩
          have hcx : cost t x ≤ m := by
            have : cost (.tPtr t) (some x) = 1 + cost t x := rfl
            omega
          obtain ⟨c, s, hcs, hsp, -, -, hnn⟩ := wrJson_head t x
          have hcn : c ≠ 'n' := hnn hgx.2
          simp only [rdJson]
          rw [show wrJson (.tPtr t) (some x) = wrJson t x from rfl]
          rw [jsonSkipSpace_wrJson]
          rw [hcs, List.cons_append]
          rw [jsonMatch_ne hcn]
          simp only []
          rw [← List.cons_append, ← hcs]
          rw [ih x t.dflt m rest hcx hgx.1 hr]
          rfl
  | tVec t ih =>
      intro v prior n rest hc hg hr
      change List t.Val at v
      obtain ⟨m, rfl⟩ : ∃ m, n = m + 1 := ⟨n - 1, by
        have : cost (.tVec t) v = 1 + maxList (v.length + 1) (v.map (cost t)) := rfl
        omega⟩
      have hceq : cost (.tVec t) v = 1 + maxList (v.length + 1) (v.map (cost t)) := rfl
      rw [hceq] at hc
      have hgeq : valGood (.tVec t) v = v.all (valGood t) := rfl
      rw [hgeq] at hg
      simp only [rdJson]
      rw [show wrJson (.tVec t) v = '[' :: sepJoin (v.map (wrJson t)) ++ [']'] from rfl]
      simp only [List.cons_append, List.append_assoc, List.singleton_append,
        List.nil_append]
      rw [jsonSkipSpace_cons (by decide)]
      simp only []
      simp only [if_true]
      have helem : ∀ w ∈ v, ∀ r, restOk r = true →
          rdJson m t t.dflt (wrJson t w ++ r) = some (w, r) := by
        intro w hw r hrk
        refine ih w t.dflt m r ?_ ?_ hrk
        · have := le_maxList_mem (List.mem_map_of_mem (cost t) hw) (v.length + 1)
          omega
        · exact List.all_eq_true.mp hg w hw
      have hlen : v.length + 1 ≤ m := by
        have := le_maxList_base (v.length + 1) (v.map (cost t))
        omega
      rw [rdVecLoop_rt (rdJson m t t.dflt) v helem [] m rest hlen]
      simp
  | tMap t ih =>
      intro v prior n rest hc hg hr
      change List (List Char × t.Val) at v
      obtain ⟨m, rfl⟩ : ∃ m, n = m + 1 := ⟨n - 1, by
        have : cost (.tMap t) v
            = 1 + maxList (v.length + 1) (v.map fun p => cost t p.2) := rfl
        omega⟩
      have hceq : cost (.tMap t) v
          = 1 + maxList (v.length + 1) (v.map fun p => cost t p.2) := rfl
      rw [hceq] at hc
      have hgeq : valGood (.tMap t) v
          = (pairsOrdered v && v.all fun p => valGood t p.2) := rfl
      rw [hgeq] at hg
      simp only [Bool.and_eq_true] at hg
      obtain ⟨hord, hall⟩ := hg
      simp only [rdJson]
      rw [show wrJson (.tMap t) v
            = '{' :: sepJoin (v.map fun p => wrStrChars p.1 ++ ':' :: wrJson t p.2)
                ++ ['}'] from rfl]
      simp only [List.cons_append, List.append_assoc, List.singleton_append,
        List.nil_append]
      rw [jsonSkipSpace_cons (by decide)]
      simp only []
      simp only [if_true]
      have helem : ∀ p ∈ v, ∀ r, restOk r = true →
          rdJson m t t.dflt (wrJson t p.2 ++ r) = some (p.2, r) := by
        intro p hp r hrk
        refine ih p.2 t.dflt m r ?_ ?_ hrk
        · have := le_maxList_mem
            (List.mem_map_of_mem (fun p => cost t p.2) hp) (v.length + 1)
          simp only [] at this
          omega
        · exact List.all_eq_true.mp hall p hp
      have hlen : v.length + 1 ≤ m := by
        have := le_maxList_base (v.length + 1) (v.map fun p => cost t p.2)
        omega
      rw [rdMapLoop_rt (rdJson m t t.dflt) v helem [] m rest hlen]
      rw [foldl_mapInsert_sorted v [] (by simpa using hord)]
      simp

/-! ## Fuel bound for fromJson -/

theorem cost_le_length (t : JType) :
    ∀ v : t.Val, cost t v ≤ (wrJson t v).length + t.depth + 1 := by
  induction t with
  | tBool =>
      intro v
      have h : cost .tBool v = 1 := rfl
      rw [h]
      omega
  | tInt =>
      intro v
      have h : cost .tInt v = 1 := rfl
      rw [h]
      omega
  | tStr =>
      intro v
      have h : cost .tStr v = 1 := rfl
      rw [h]
      omega
  | tPtr t ih =>
      intro v
      cases v with
      | none =>
          have h : cost (.tPtr t) (none : Option t.Val) = 1 := rfl
          rw [h]
          omega
      | some x =>
          have h1 : cost (.tPtr t) (some x) = 1 + cost t x := rfl
          have h2 : wrJson (.tPtr t) (some x) = wrJson t x := rfl
          have h3 : JType.depth (.tPtr t) = t.depth + 1 := rfl
          rw [h1, h2, h3]
          have := ih x
          omega
  | tVec t ih =>
      intro v
      change List t.Val at v
      have h1 : cost (.tVec t) v = 1 + maxList (v.length + 1) (v.map (cost t)) := rfl
      have h2 : wrJson (.tVec t) v = '[' :: sepJoin (v.map (wrJson t)) ++ [']'] := rfl
      have h3 : JType.depth (.tVec t) = t.depth + 1 := rfl
      rw [h1, h2, h3]
      simp only [List.length_cons, List.length_append, List.length_nil]
      have hmax : maxList (v.length + 1) (v.map (cost t))
          ≤ (sepJoin (v.map (wrJson t))).length + t.depth + 3 := by
        apply maxList_le
        · have hne : ∀ x ∈ v.map (wrJson t), x ≠ [] := by
            intro x hx
            obtain ⟨w, hw, rfl⟩ := List.mem_map.mp hx
            obtain ⟨c, s, hcs, -, -, -, -⟩ := wrJson_head t w
            rw [hcs]
            exact List.cons_ne_nil c s
          have := length_le_sepJoin (v.map (wrJson t)) hne
          simp only [List.length_map] at this
          omega
        · intro x hx
          obtain ⟨w, hw, rfl⟩ := List.mem_map.mp hx
          have h4 := ih w
          have h5 := mem_length_le_sepJoin (List.mem_map_of_mem (wrJson t) hw)
          omega
      omega
  | tMap t ih =>
      intro v
      change List (List Char × t.Val) at v
      have h1 : cost (.tMap t) v
          = 1 + maxList (v.length + 1) (v.map fun p => cost t p.2) := rfl
      have h2 : wrJson (.tMap t) v
          = '{' :: sepJoin (v.map fun p => wrStrChars p.1 ++ ':' :: wrJson t p.2)
              ++ ['}'] := rfl
      have h3 : JType.depth (.tMap t) = t.depth + 1 := rfl
      rw [h1, h2, h3]
      simp only [List.length_cons, List.length_append, List.length_nil]
      have hmax : maxList (v.length + 1) (v.map fun p => cost t p.2)
          ≤ (sepJoin (v.map fun p => wrStrChars p.1 ++ ':' :: wrJson t p.2)).length
              + t.depth + 3 := by
        apply maxList_le
        · have hne : ∀ x ∈ v.map fun p => wrStrChars p.1 ++ ':' :: wrJson t p.2,
              x ≠ [] := by
            intro x hx
            obtain ⟨p, hp, rfl⟩ := List.mem_map.mp hx
            rw [show wrStrChars p.1 ++ ':' :: wrJson t p.2
                  = '"' :: ((p.1.map escChar).flatten ++ ['"']
                      ++ ':' :: wrJson t p.2) from by rw [wrStrChars]; simp]
            exact List.cons_ne_nil _ _
          have := length_le_sepJoin
            (v.map fun p => wrStrChars p.1 ++ ':' :: wrJson t p.2) hne
          simp only [List.length_map] at this
          omega
        · intro x hx
          obtain ⟨p, hp, rfl⟩ := List.mem_map.mp hx
          have h4 := ih p.2
          have h5 := mem_length_le_sepJoin
            (List.mem_map_of_mem (fun p => wrStrChars p.1 ++ ':' :: wrJson t p.2) hp)
          simp only [List.length_append, List.length_cons] at h5
          omega
      omega

/-! ## Claim C1: round trip -/

/-- C1 counterexample: the round trip fails, as the claim stands, at a
constructible value — the shape `shared_ptr<shared_ptr<bool>>` with a present
outer pointer holding a null inner pointer.  Its encoding is the literal
`null` (the writer emits the pointee, jsonio.h lines 148-157), which decodes
back as "absent": `fromJson (asJson (some none))` returns `some none`, not
`some (some none)`. -/
theorem fromJson_asJson_cex :
    ¬ fromJson (JType.tPtr (JType.tPtr JType.tBool))
        (asJson (JType.tPtr (JType.tPtr JType.tBool)) (some none))
      = some (some none) := by decide

/-- C1 amended: for every supported value shape in the embedded universe and
every value `v` of that shape whose present pointees do not themselves encode
as the `null` literal (and whose map listings satisfy the `std::map`
sortedness invariant), decoding the encoding recovers the value:
`fromJson (asJson v)` succeeds and returns `v` itself (the C++ call returns
true and sets the out-parameter to a value equal to `v`).  A present pointer
chain ending in null encodes as `null` and decodes to absent, so the round
trip fails exactly on the values `valGood` excludes.  Floating-point shapes
are outside the embedding. -/
theorem fromJson_asJson (t : JType) (v : t.Val) (h : valGood t v = true) :
    fromJson t (asJson t v) = some v := by
  unfold fromJson asJson
  have hcost : cost t v ≤ (wrJson t v).length + t.depth + 1 := cost_le_length t v
  have hrt := rdJson_wrJson t v t.dflt ((wrJson t v).length + t.depth + 1) []
    hcost h rfl
  rw [List.append_nil] at hrt
  rw [hrt]
  rfl

/-- C1 witness: a concrete ordered map of vectors of booleans round-trips. -/
theorem fromJson_asJson_witness :
    valGood (JType.tMap (JType.tVec JType.tBool)) [("a".data, [true])] = true ∧
    fromJson (JType.tMap (JType.tVec JType.tBool))
        (asJson (JType.tMap (JType.tVec JType.tBool)) [("a".data, [true])])
      = some [("a".data, [true])] :=
  ⟨by decide, fromJson_asJson (JType.tMap (JType.tVec JType.tBool))
    [("a".data, [true])] (by decide)⟩

/-! ## Claim C5: the size pass bounds the write pass -/

theorem sumMap_le {α : Type} (f g : α → Nat) :
    ∀ l : List α, (∀ x ∈ l, f x ≤ g x) → (l.map f).sum ≤ (l.map g).sum := by
  intro l
  induction l with
  | nil => intro _; exact le_refl _
  | cons x xs ih =>
      intro h
      simp only [List.map_cons, List.sum_cons]
      have h1 := ih fun y hy => h y (List.mem_cons_of_mem _ hy)
      have h2 := h x (List.mem_cons_self _ _)
      omega

theorem sumMap_le_add {α : Type} (f g : α → Nat) :
    ∀ l : List α, (∀ x ∈ l, f x + 1 ≤ g x) →
      (l.map f).sum + l.length ≤ (l.map g).sum := by
  intro l
  induction l with
  | nil => intro _; simp
  | cons x xs ih =>
      intro h
      simp only [List.map_cons, List.sum_cons, List.length_cons]
      have h1 := ih fun y hy => h y (List.mem_cons_of_mem _ hy)
      have h2 := h x (List.mem_cons_self _ _)
      omega

/-- C5: the byte count of the size pass is an upper bound on the bytes the
write pass emits, for every value of every embedded shape: the buffer
allocated from `wrJsonSize` is never overrun by `wrJson`. -/
theorem wrJson_length_le_wrJsonSize (t : JType) :
    ∀ v : t.Val, (wrJson t v).length ≤ wrJsonSize t v := by
  induction t with
  | tBool => intro v; exact le_refl _
  | tInt => intro v; exact le_refl _
  | tStr => intro v; exact le_refl _
  | tPtr t ih =>
      intro v
      cases v with
      | none => exact le_refl _
      | some x => exact ih x
  | tVec t ih =>
      intro v
      change List t.Val at v
      have h2 : wrJson (.tVec t) v = '[' :: sepJoin (v.map (wrJson t)) ++ [']'] := rfl
      have h3 : wrJsonSize (.tVec t) v = 2 + v.length + (v.map (wrJsonSize t)).sum := rfl
      rw [h2, h3]
      simp only [List.length_cons, List.length_append, List.length_nil]
      have h4 := sepJoin_length_le (v.map (wrJson t))
      rw [List.map_map] at h4
      simp only [List.length_map, Function.comp_def] at h4
      have h5 := sumMap_le (fun w => (wrJson t w).length) (wrJsonSize t) v
        (fun w _ => ih w)
      omega
  | tMap t ih =>
      intro v
      change List (List Char × t.Val) at v
      have h2 : wrJson (.tMap t) v
          = '{' :: sepJoin (v.map fun p => wrStrChars p.1 ++ ':' :: wrJson t p.2)
              ++ ['}'] := rfl
      have h3 : wrJsonSize (.tMap t) v
          = 2 + (v.map fun p => (wrStrChars p.1).length + wrJsonSize t p.2 + 2).sum := rfl
      rw [h2, h3]
      simp only [List.length_cons, List.length_append, List.length_nil]
      have h4 := sepJoin_length_le (v.map fun p => wrStrChars p.1 ++ ':' :: wrJson t p.2)
      rw [List.map_map] at h4
      simp only [List.length_map, Function.comp_def, List.length_append,
        List.length_cons] at h4
      have h5 := sumMap_le_add
        (fun x => (wrStrChars x.1).length + ((wrJson t x.2).length + 1))
        (fun p => (wrStrChars p.1).length + wrJsonSize t p.2 + 2) v
        (fun p _ => by
          show (wrStrChars p.1).length + ((wrJson t p.2).length + 1) + 1
            ≤ (wrStrChars p.1).length + wrJsonSize t p.2 + 2
          have := ih p.2
          omega)
      omega

/-! ## Claim C7: duplicate object keys decode last-wins -/

theorem mapLookup_foldl {α : Type} (k : List Char) :
    ∀ (ps acc : List (List Char × α)),
      mapLookup k (ps.foldl (fun m p => mapInsert p.1 p.2 m) acc)
        = match lastBind k ps with
          | some v => some v
          | none => mapLookup k acc := by
  intro ps
  induction ps with
  | nil => intro acc; rfl
  | cons p ps ih =>
      intro acc
      simp only [List.foldl_cons, lastBind]
      rw [ih (mapInsert p.1 p.2 acc)]
      cases hlb : lastBind k ps with
      | some v => simp only []
      | none =>
          simp only []
          by_cases hk : p.1 = k
          · rw [if_pos hk]
            subst hk
            exact mapLookup_insert_self p.1 p.2 acc
          · rw [if_neg hk]
            exact mapLookup_insert_ne hk p.2 acc

/-- C7: reading any JSON object text built from a raw key/value listing
(duplicate keys allowed, each value well formed) succeeds, produces the fold
of `arr[k] = v` insertions over the listing in input order, and therefore
binds every key to the value of its last occurrence in the input. -/
theorem rdJson_map_dup_lastWins (t : JType) (ps : List (List Char × t.Val))
    (k : List Char) (hv : (ps.all fun p => valGood t p.2) = true)
    (n : Nat) (hn1 : ps.length + 2 ≤ n) (hn2 : ∀ p ∈ ps, cost t p.2 + 1 ≤ n) :
    rdJson n (JType.tMap t) (JType.tMap t).dflt (wrObj t ps)
        = some (ps.foldl (fun m p => mapInsert p.1 p.2 m) [], []) ∧
      mapLookup k (ps.foldl (fun m p => mapInsert p.1 p.2 m) []) = lastBind k ps := by
  obtain ⟨m, rfl⟩ : ∃ m, n = m + 1 := ⟨n - 1, by omega⟩
  constructor
  · simp only [rdJson]
    rw [show wrObj t ps
          = '{' :: (sepJoin (ps.map fun p => wrStrChars p.1 ++ ':' :: wrJson t p.2)
              ++ ['}']) from rfl]
    rw [jsonSkipSpace_cons (by decide)]
    simp only []
    simp only [if_true]
    have helem : ∀ p ∈ ps, ∀ r, restOk r = true →
        rdJson m t t.dflt (wrJson t p.2 ++ r) = some (p.2, r) := by
      intro p hp r hrk
      refine rdJson_wrJson t p.2 t.dflt m r ?_ ?_ hrk
      · have := hn2 p hp
        omega
      · exact List.all_eq_true.mp hv p hp
    exact rdMapLoop_rt (rdJson m t t.dflt) ps helem [] m [] (by omega)
  · rw [mapLookup_foldl k ps []]
    cases lastBind k ps <;> rfl

/-- C7 witness: the object text `{"a":true,"a":false}` decodes successfully
and binds `"a"` to the last value. -/
theorem rdJson_map_dup_lastWins_witness :
    rdJson 5 (JType.tMap JType.tBool) (JType.tMap JType.tBool).dflt
        (wrObj JType.tBool [("a".data, true), ("a".data, false)])
      = some ([("a".data, false)], []) ∧
    mapLookup "a".data
        ([("a".data, true), ("a".data, false)].foldl
          (fun m p => mapInsert p.1 p.2 m) [])
      = lastBind "a".data [("a".data, true), ("a".data, false)] := by
  have h := rdJson_map_dup_lastWins JType.tBool
    [("a".data, true), ("a".data, false)] "a".data (by decide) 5 (by decide)
    (by decide)
  refine ⟨?_, h.2⟩
  rw [h.1]
  decide

/-! ## Claim C9: container reads clear the destination -/

/-- C9: a successful `rdJson` into a vector or a map yields a result that is
independent of the destination's prior contents — the reader clears the
container after the opening bracket, so prior elements never survive into a
successful decode. -/
theorem rdJson_clears_prior (t : JType) (n : Nat) (s : List Char)
    (p₁ p₂ : (JType.tVec t).Val) (q₁ q₂ : (JType.tMap t).Val) :
    rdJson n (JType.tVec t) p₁ s = rdJson n (JType.tVec t) p₂ s ∧
    rdJson n (JType.tMap t) q₁ s = rdJson n (JType.tMap t) q₂ s := by
  cases n with
  | zero => exact ⟨rfl, rfl⟩
  | succ m => exact ⟨rfl, rfl⟩

/-! ## Receive scan lemmas -/

theorem findNl_length :
    ∀ {l b a : List Char}, findNl l = some (b, a) → a.length < l.length := by
  intro l
  induction l with
  | nil => intro b a hba; simp [findNl] at hba
  | cons c s ih =>
      intro b a hba
      by_cases hc : c = '\n'
      · simp only [findNl, if_pos hc, Option.some.injEq, Prod.mk.injEq] at hba
        obtain ⟨-, h2⟩ := hba
        subst h2
        simp only [List.length_cons]
        omega
      · simp only [findNl, if_neg hc] at hba
        cases hfs : findNl s with
        | none => rw [hfs] at hba; simp at hba
        | some p =>
            rw [hfs] at hba
            obtain ⟨b', a'⟩ := p
            simp only [Option.some.injEq, Prod.mk.injEq] at hba
            obtain ⟨-, h2⟩ := hba
            subst h2
            have := ih hfs
            simp only [List.length_cons]
            omega

theorem findNl_append (a b : List Char) :
    findNl (a ++ b)
      = match findNl a with
        | some (x, y) => some (x, y ++ b)
        | none =>
            match findNl b with
            | none => none
            | some (x, y) => some (a ++ x, y) := by
  induction a with
  | nil =>
      simp only [List.nil_append]
      rw [show findNl ([] : List Char) = none from rfl]
      cases hfb : findNl b with
      | none => rfl
      | some p =>
          obtain ⟨x, y⟩ := p
          simp
  | cons c s ih =>
      simp only [List.cons_append, findNl, List.append_eq]
      by_cases hc : c = '\n'
      · simp only [if_pos hc]
      · simp only [if_neg hc]
        rw [ih]
        cases hfs : findNl s with
        | none =>
            simp only []
            cases hfb : findNl b with
            | none => rfl
            | some p =>
                obtain ⟨x, y⟩ := p
                simp
        | some p =>
            obtain ⟨x, y⟩ := p
            simp only []

theorem rxScan_none {st : ScanSt} {chunk : List Char} (h : findNl chunk = none) :
    rxScan st chunk = ⟨st.cur ++ chunk, st.q, st.act⟩ := by
  rw [rxScan]
  split
  · rfl
  · rename_i b a heq
    rw [h] at heq
    exact Option.noConfusion heq

theorem rxScan_some {st : ScanSt} {chunk b a : List Char}
    (h : findNl chunk = some (b, a)) :
    rxScan st chunk
      = if st.cur = [] then rxScan ⟨[], st.q ++ [b], true⟩ a
        else rxScan ⟨[], st.q ++ [st.cur ++ b], true⟩ a := by
  rw [rxScan]
  split
  · rename_i heq
    rw [h] at heq
    exact Option.noConfusion heq
  · rename_i b' a' heq
    rw [h] at heq
    simp only [Option.some.injEq, Prod.mk.injEq] at heq
    obtain ⟨h1, h2⟩ := heq
    subst h1
    subst h2
    rfl

theorem rxScan_append :
    ∀ (k : Nat) (a : List Char), a.length ≤ k →
      ∀ (st : ScanSt) (b : List Char), rxScan st (a ++ b) = rxScan (rxScan st a) b := by
  intro k
  induction k with
  | zero =>
      intro a ha st b
      have ha0 : a = [] := List.length_eq_zero.mp (Nat.le_zero.mp ha)
      subst ha0
      rw [rxScan_none (show findNl [] = none from rfl)]
      simp only [List.nil_append, List.append_nil]
  | succ k ih =>
      intro a ha st b
      cases hfa : findNl a with
      | none =>
          rw [rxScan_none hfa]
          have hab : findNl (a ++ b)
              = match findNl b with
                | none => none
                | some (x, y) => some (a ++ x, y) := by
            rw [findNl_append, hfa]
          cases hfb : findNl b with
          | none =>
              rw [rxScan_none (by rw [hab, hfb])]
              rw [rxScan_none hfb]
              simp [List.append_assoc]
          | some p =>
              obtain ⟨x, y⟩ := p
              rw [rxScan_some (show findNl (a ++ b) = some (a ++ x, y) from by
                rw [hab, hfb])]
              rw [rxScan_some hfb]
              by_cases hcur : st.cur = []
              · rw [if_pos hcur]
                by_cases hca : st.cur ++ a = []
                · rw [if_pos hca]
                  have ha2 : a = [] := by
                    rw [hcur] at hca
                    simpa using hca
                  subst ha2
                  simp
                · rw [if_neg hca]
                  rw [hcur]
                  simp
              · rw [if_neg hcur]
                have hca : st.cur ++ a ≠ [] := by
                  intro hh
                  exact hcur (List.append_eq_nil.mp hh).1
                rw [if_neg hca]
                simp [List.append_assoc]
      | some p =>
          obtain ⟨x, y⟩ := p
          have hy : y.length ≤ k := by
            have := findNl_length hfa
            omega
          rw [rxScan_some (show findNl (a ++ b) = some (x, y ++ b) from by
            rw [findNl_append, hfa])]
          rw [rxScan_some hfa]
          by_cases hcur : st.cur = []
          · rw [if_pos hcur, if_pos hcur]
            exact ih y hy ⟨[], st.q ++ [x], true⟩ b
          · rw [if_neg hcur, if_neg hcur]
            exact ih y hy ⟨[], st.q ++ [st.cur ++ x], true⟩ b

theorem rxWorkAux_chunk_cons (st : RxState) (act dg : Bool) (d : List Char)
    (rs : List RdRes) :
    rxWorkAux st act dg (RdRes.chunk d :: rs)
      = rxWorkAux
          ⟨(rxScan ⟨st.rxCur, st.rxQ, act⟩ d).cur,
            (rxScan ⟨st.rxCur, st.rxQ, act⟩ d).q, st.rxOpen⟩
          (rxScan ⟨st.rxCur, st.rxQ, act⟩ d).act dg rs := rfl

theorem rxWorkAux_chunks :
    ∀ (chunks : List (List Char)) (st : RxState) (act dg : Bool),
      rxWorkAux st act dg (chunks.map RdRes.chunk)
        = rxWorkAux st act dg [RdRes.chunk chunks.flatten] := by
  intro chunks
  induction chunks with
  | nil =>
      intro st act dg
      simp only [List.map_nil, List.flatten_nil]
      rw [rxWorkAux_chunk_cons]
      rw [rxScan_none (show findNl [] = none from rfl)]
      simp
  | cons c cs ih =>
      intro st act dg
      simp only [List.map_cons, List.flatten_cons]
      rw [rxWorkAux_chunk_cons]
      rw [ih]
      rw [rxWorkAux_chunk_cons]
      rw [rxWorkAux_chunk_cons]
      rw [rxScan_append c.length c (le_refl _) ⟨st.rxCur, st.rxQ, act⟩ cs.flatten]

/-! ## Claim C4: framing is chunking-invariant -/

/-- C4: feeding a byte stream through the receive pump in arbitrary chunks
(one `read` outcome per chunk) leaves exactly the same state — the same
ordered record sequence in the receive queue and the same carry-over — as
feeding the whole stream in a single chunk. -/
theorem rxWork_chunking (st : RxState) (chunks : List (List Char)) :
    rxWork st (chunks.map RdRes.chunk) = rxWork st [RdRes.chunk chunks.flatten] :=
  rxWorkAux_chunks chunks st false false

/-! ## Claim C2: close without signal (lost wakeup) -/

/-- C2 evidence: when `rxWork` sees end-of-stream with no pending complete
record, it closes the receive direction but does not signal `rxQNonempty`
(`notified = false`), so a thread blocked in `rxBlock` on the empty queue is
not woken. -/
theorem rxWork_eof_no_notify :
    rxWork ⟨[], [], true⟩ [RdRes.eof] = ⟨⟨[], [], false⟩, false, false⟩ := rfl

/-! ## Claim C6: EOF with a partial record -/

/-- C6: a zero-length read with a nonempty partial record buffered discards
the partial record with a diagnostic (`diag = true`), enqueues nothing (the
receive queue is unchanged), and closes the receive direction; the embedded
EOF path is total — no exception is thrown. -/
theorem rxWork_eof_discard (cur : List Char) (h : cur ≠ []) (q : List (List Char)) :
    rxWork ⟨cur, q, true⟩ [RdRes.eof] = ⟨⟨[], q, false⟩, false, true⟩ := by
  have hne : cur.isEmpty = false := by
    cases cur with
    | nil => exact absurd rfl h
    | cons c cs => rfl
  simp [rxWork, rxWorkAux, closeRxM, hne]

/-- C6 witness: the spec's scenario — a stream ending in the partial record
`{"x":1` with no trailing newline. -/
theorem rxWork_eof_discard_witness :
    (['{', '"', 'x', '"', ':', '1'] ≠ ([] : List Char)) ∧
    rxWork ⟨['{', '"', 'x', '"', ':', '1'], [], true⟩ [RdRes.eof]
      = ⟨⟨[], [], false⟩, false, true⟩ :=
  ⟨by decide, rxWork_eof_discard ['{', '"', 'x', '"', ':', '1'] (by decide) []⟩

/-! ## Claim C10: blank lines become empty records -/

/-- C10: a blank line on the wire is enqueued by the scan loop as a
zero-length record, and `rxNonblock` returns the empty string for it — the
same value it returns when the receive queue is empty, so the two cases are
indistinguishable from the return value. -/
theorem blankLine_indistinguishable (q : List (List Char)) (act : Bool) (b : Bool) :
    rxScan ⟨[], q, act⟩ ['\n'] = ⟨[], q ++ [[]], true⟩ ∧
    (rxNonblock ⟨[], [[]], b⟩).1 = [] ∧ (rxNonblock ⟨[], [], b⟩).1 = [] := by
  refine ⟨?_, rfl, rfl⟩
  rw [rxScan_some (show findNl ['\n'] = some ([], []) from rfl)]
  rw [if_pos rfl]
  rw [rxScan_none (show findNl [] = none from rfl)]
  simp

/-! ## Claim C3: partial send behaviour of txWork -/

/-- C3 counterexample: the claim as stated — after a partial send the pass
stops with the unsent suffix and performs no further send — is false: from
`txCur = "xy"` with send outcomes `[sent 1, sent 1]`, the code performs the
second send in the same pass (both outcomes are consumed and the record
drains), instead of stopping at `txCur = "y"` with the second outcome
unconsumed. -/
theorem txWork_partial_cex :
    ¬ (txWork ⟨['x', 'y'], [], false, true⟩ [SendRes.sent 1, SendRes.sent 1]
        = some (⟨['y'], [], false, true⟩, [SendRes.sent 1])) := by decide

/-- C3 amended: when a send transmits only part of the current record
(`0 < n < txCur.length`), `txWork` retains exactly the unsent suffix as the
new current record and loops to attempt another send in the same servicing
pass (the pass ends only on would-block, an error, or a drained queue). -/
theorem txWork_partial_send (st : TxState) (n : Nat) (rest : List SendRes)
    (h1 : st.txCur ≠ []) (h2 : 0 < n) (h3 : n < st.txCur.length) :
    txWork st (SendRes.sent n :: rest)
      = txWork { st with txCur := st.txCur.drop n } rest := by
  obtain ⟨cur, q, eofF, opn⟩ := st
  cases cur with
  | nil => exact absurd rfl h1
  | cons c cs =>
      simp only [txWork]
      rw [if_neg (List.cons_ne_nil c cs)]
      rw [if_pos h3]

/-- C3 witness: a concrete partial send retains the suffix and continues. -/
theorem txWork_partial_send_witness :
    ((['x', 'y'] : List Char) ≠ []) ∧ 0 < 1 ∧ 1 < (['x', 'y'] : List Char).length ∧
    txWork ⟨['x', 'y'], [], false, true⟩ [SendRes.sent 1]
      = txWork ⟨['y'], [], false, true⟩ [] :=
  ⟨by decide, by decide, by decide,
    txWork_partial_send ⟨['x', 'y'], [], false, true⟩ 1 [] (by decide) (by decide)
      (by decide)⟩

/-! ## Claim C8: lock discipline of the public methods -/

/-- C8 counterexample: it is not true that every method trace touches shared
state only under the instance mutex — `txEof` stores to the `txEofFlag` latch
without acquiring the lock. -/
theorem jsonpipe_locking_cex :
    ¬ ∀ tr ∈ jsonpipeTraces, lockedOk 0 tr = true := by decide

/-- C8 amended: every public method of `jsonpipe` except `txEof` acquires the
instance mutex before any touch of the shared state (both queues, both
partial buffers, both fds, the latch); `txEof` alone writes the latch
unlocked. -/
theorem jsonpipe_locking_amended :
    ∀ tr ∈ jsonpipeTracesExceptTxEof, lockedOk 0 tr = true := by decide

/-- C8 witness: the `tx` trace is among the locked methods and passes the
lock-discipline check. -/
theorem jsonpipe_locking_amended_witness :
    txTrace ∈ jsonpipeTracesExceptTxEof ∧ lockedOk 0 txTrace = true :=
  ⟨by decide, jsonpipe_locking_amended txTrace (by decide)⟩

end Tlbcore
